import Mathlib

/-!
Verification of the `fatal` compile-time container library (type_list / type_map /
flag_set) against its natural-language specification.

The C++ library manipulates lists of types through template instantiation.  We
shallowly embed it: a `type_list` becomes a `List α` over an abstract universe
`α` of "types" with decidable equality (`std::is_same` becomes `=`), a
`type_map` becomes a `List (α × α)` of key/mapped pairs, a less-comparer
template becomes a `C : α → α → Bool`, and the runtime binary-search facilities
(which call `TComparer::compare(needle, element)` returning an `int`) become
functions parameterised by `cmp : α → Int`, the comparison of the fixed needle
against an element.  Visitor invocations are recorded in an explicit event
list, so "the visitor is called exactly once with these arguments" is a
statement about that list.

Every definition in namespace `fatal` is translated from the corresponding
template in `src/fatal/type/list.h`, `src/fatal/type/map.h` or
`src/fatal/container/flag_set.h`; partial template specialisations become
`match` arms in the same order of specificity.
-/

set_option maxHeartbeats 1600000

namespace fatal

variable {α : Type _} {β : Type _}

/-- Embeds `detail::type_list_impl::index_of<Index, T, ...>` (list.h:222-236):
the accumulator `Index` grows by one per skipped element; the base case (empty
tail) yields the accumulator. -/
def index_of [DecidableEq α] (idx : Nat) (t : α) : List α → Nat
  | [] => idx
  | u :: rest => if t = u then idx else index_of (idx + 1) t rest

/-- Embeds `detail::type_list_impl::contains<T, ...>` (list.h:260-272). -/
def contains [DecidableEq α] (t : α) : List α → Bool
  | [] => false
  | u :: rest => if t = u then true else contains t rest

/-- Embeds `detail::type_list_impl::filter<TFilter, ...>` (list.h:457-482):
builds the pair for the tail first, then pushes the head onto the first or the
second component according to the predicate. -/
def filter (p : α → Bool) : List α → List α × List α
  | [] => ([], [])
  | u :: rest =>
    let tail := filter p rest
    if p u then (u :: tail.1, tail.2) else (tail.1, u :: tail.2)

theorem index_of_shift [DecidableEq α] (t : α) :
    ∀ (L : List α) (idx : Nat), index_of idx t L = idx + index_of 0 t L := by
  intro L
  induction L with
  | nil => intro idx; simp [index_of]
  | cons u rest ih =>
    intro idx
    by_cases h : t = u
    · simp [index_of, h]
    · rw [index_of, if_neg h, ih, index_of, if_neg h, ih 1]
      omega

theorem index_of_cons [DecidableEq α] (t u : α) (rest : List α) :
    index_of 0 t (u :: rest) =
      if t = u then 0 else index_of 0 t rest + 1 := by
  by_cases h : t = u
  · simp [index_of, h]
  · rw [index_of, if_neg h, index_of_shift, if_neg h]
    omega

/-- C10: `index_of<T>` yields the 0-based position of the first occurrence of
`T` when present, the list size when absent, and is below the size exactly when
`contains<T>` holds. -/
theorem index_of_first_occurrence_and_contains [DecidableEq α]
    (t : α) (L : List α) :
    (t ∈ L →
      index_of 0 t L < L.length
      ∧ L[index_of 0 t L]? = some t
      ∧ ∀ j : Nat, j < index_of 0 t L → L[j]? ≠ some t)
    ∧ (t ∉ L → index_of 0 t L = L.length)
    ∧ (index_of 0 t L < L.length ↔ contains t L = true) := by
  induction L with
  | nil => simp [index_of, contains]
  | cons u rest ih =>
    by_cases h : t = u
    · subst h
      refine ⟨fun _ => ?_, fun hmem => absurd (List.mem_cons_self _ _) hmem, ?_⟩
      · simp [index_of_cons]
      · simp [index_of_cons, contains]
    · rw [index_of_cons, if_neg h]
      refine ⟨fun hmem => ?_, fun hmem => ?_, ?_⟩
      · rcases List.mem_cons.mp hmem with rfl | hmem
        · exact absurd rfl h
        · obtain ⟨h1, h2, h3⟩ := ih.1 hmem
          refine ⟨by simpa using h1, by simpa using h2, ?_⟩
          intro j hj
          cases j with
          | zero => simpa using fun hequ => h hequ.symm
          | succ j =>
            simpa using h3 j (by omega)
      · have hmem' : t ∉ rest := fun hr => hmem (List.mem_cons_of_mem _ hr)
        simp [ih.2.1 hmem']
      · rw [contains, if_neg h]
        have := ih.2.2
        constructor
        · intro hlt
          exact this.mp (by simpa using hlt)
        · intro hc
          have := this.mpr hc
          simpa using this

/-- Closed instance of `index_of_first_occurrence_and_contains`. -/
theorem index_of_first_occurrence_and_contains_witness :
    ((2 : Nat) ∈ [5, 2, 2, 7] →
      index_of 0 2 [5, 2, 2, 7] < 4
      ∧ [5, 2, 2, 7][index_of 0 2 [5, 2, 2, 7]]? = some 2
      ∧ ∀ j : Nat, j < index_of 0 2 [5, 2, 2, 7] → [5, 2, 2, 7][j]? ≠ some 2)
    ∧ ((2 : Nat) ∉ [5, 2, 2, 7] → index_of 0 2 [5, 2, 2, 7] = 4)
    ∧ (index_of 0 2 [5, 2, 2, 7] < 4 ↔ contains 2 [5, 2, 2, 7] = true) :=
  index_of_first_occurrence_and_contains 2 [5, 2, 2, 7]

theorem filter_eq (p : α → Bool) :
    ∀ L : List α, filter p L = (L.filter p, L.filter (fun x => !(p x))) := by
  intro L
  induction L with
  | nil => simp [filter]
  | cons u rest ih =>
    by_cases h : p u
    · simp [filter, ih, h, List.filter_cons]
    · simp only [Bool.not_eq_true] at h
      simp [filter, ih, h, List.filter_cons]

/-- C4: `filter<TFilter>` partitions the list: the first component holds the
accepted elements in order, the second the rejected ones in order, and every
element of the list lands in exactly one of the two. -/
theorem filter_partitions (p : α → Bool) (L : List α) :
    (filter p L).1 = L.filter p
    ∧ (filter p L).2 = L.filter (fun x => !(p x))
    ∧ ∀ x ∈ L,
        ((x ∈ (filter p L).1 ∧ x ∉ (filter p L).2)
          ∨ (x ∈ (filter p L).2 ∧ x ∉ (filter p L).1)) := by
  have h := filter_eq p L
  rw [h]
  refine ⟨rfl, rfl, ?_⟩
  intro x hx
  by_cases hp : p x
  · left
    constructor
    · exact List.mem_filter.mpr ⟨hx, hp⟩
    · intro hmem
      have := (List.mem_filter.mp hmem).2
      simp [hp] at this
  · right
    constructor
    · exact List.mem_filter.mpr ⟨hx, by simpa using hp⟩
    · intro hmem
      have := (List.mem_filter.mp hmem).2
      simp [hp] at this

/-- Closed instance of `filter_partitions`. -/
theorem filter_partitions_witness :
    (filter (fun x => x % 2 == 0) [1, 2, 3, 4]).1 = [1, 2, 3, 4].filter (fun x => x % 2 == 0)
    ∧ (filter (fun x => x % 2 == 0) [1, 2, 3, 4]).2
        = [1, 2, 3, 4].filter (fun x => !(x % 2 == 0))
    ∧ ∀ x ∈ [1, 2, 3, 4],
        ((x ∈ (filter (fun x => x % 2 == 0) [1, 2, 3, 4]).1
            ∧ x ∉ (filter (fun x => x % 2 == 0) [1, 2, 3, 4]).2)
          ∨ (x ∈ (filter (fun x => x % 2 == 0) [1, 2, 3, 4]).2
            ∧ x ∉ (filter (fun x => x % 2 == 0) [1, 2, 3, 4]).1)) :=
  filter_partitions (fun x : Nat => x % 2 == 0) [1, 2, 3, 4]

/-- Embeds `detail::type_list_impl::left<Size, ...>` (list.h:403-417): the
first `Size` elements (the source static-asserts `Size <= size`; past the end
we yield the whole list's prefix, i.e. nothing remains to take). -/
def left : Nat → List α → List α
  | 0, _ => []
  | _ + 1, [] => []
  | n + 1, u :: rest => u :: left n rest

/-- Embeds `detail::type_list_impl::slice<Begin, End, ...>` (list.h:423-439):
peels `Begin` elements off, decrementing both bounds, then takes `End - Begin`
elements via `left`. -/
def slice : Nat → Nat → List α → List α
  | 0, e, l => left e l
  | _ + 1, _, [] => []
  | b + 1, e, _ :: rest => slice b (e - 1) rest

/-- Embeds `detail::type_list_impl::try_at<Distance, ...>` (list.h:201-216): a
singleton list with the element at the given index, or an empty list when the
index is out of bounds. -/
def try_at : Nat → List α → List α
  | _, [] => []
  | 0, u :: _ => [u]
  | d + 1, _ :: rest => try_at d rest

/-- Embeds `detail::type_list_impl::tail<Index, ...>` (list.h:687-698): drops
the first `Index` elements. -/
def tail : Nat → List α → List α
  | 0, l => l
  | _ + 1, [] => []
  | n + 1, _ :: rest => tail n rest

/-- Embeds `detail::type_list_impl::skip<Next, Step, ...>` (list.h:518-534):
keeps an element when the countdown `Next` hits zero (resetting it to `Step`),
otherwise drops it and decrements the countdown. -/
def skip (next step : Nat) : List α → List α
  | [] => []
  | u :: rest =>
    let tl := skip (if next = 0 then step else next - 1) step rest
    if next = 0 then u :: tl else tl

/-- Embeds `detail::type_list_impl::zip<TRightList, Index, ...>`
(list.h:488-512): interleaves the left list (the variadic arguments) with the
right list starting at position `Index`; once the left list is exhausted the
remainder of the right list (`slice<Index, size>`) is appended, and once the
right list is exhausted (`Index == TRightList::size`) the remaining left
elements are appended. -/
def zip (right : List α) : Nat → List α → List α
  | index, [] => slice index right.length right
  | index, u :: rest =>
    if index = right.length then u :: rest
    else u :: try_at index right ++ zip right (index + 1) rest

/-- Embeds `type_list::unzip<Step, Offset>` (list.h:1830-1833):
`tail<(Offset < size) ? Offset : size>` then `skip<0, Step>`. -/
def unzip (step offset : Nat) (L : List α) : List α :=
  skip 0 step (tail (if offset < L.length then offset else L.length) L)

/-- Modelled from the spec: the claimed behaviour of `zip` — interleave the two
lists alternately starting with the owner list, appending the remainder of the
longer list once the shorter is exhausted.  Used as the specification side of
the refinement statement for `zip`. -/
def interleave : List α → List α → List α
  | [], bs => bs
  | a :: as, bs => a :: interleave bs as
termination_by as bs => as.length + bs.length
decreasing_by simp; omega

theorem left_eq_take : ∀ (n : Nat) (L : List α), left n L = L.take n := by
  intro n
  induction n with
  | zero => intro L; cases L <;> simp [left]
  | succ n ih =>
    intro L
    cases L with
    | nil => simp [left]
    | cons u rest => simp [left, ih]

theorem slice_eq (b : Nat) :
    ∀ (e : Nat) (L : List α), slice b e L = (L.drop b).take (e - b) := by
  induction b with
  | zero => intro e L; simp [slice, left_eq_take]
  | succ b ih =>
    intro e L
    cases L with
    | nil => simp [slice]
    | cons u rest =>
      rw [slice, ih, List.drop_succ_cons]
      congr 1
      omega

theorem try_at_eq : ∀ (d : Nat) (L : List α), try_at d L = (L.drop d).take 1 := by
  intro d
  induction d with
  | zero => intro L; cases L <;> simp [try_at]
  | succ d ih =>
    intro L
    cases L with
    | nil => simp [try_at]
    | cons u rest => simp [try_at, ih]

theorem tail_eq_drop : ∀ (n : Nat) (L : List α), tail n L = L.drop n := by
  intro n
  induction n with
  | zero => intro L; simp [tail]
  | succ n ih =>
    intro L
    cases L with
    | nil => simp [tail]
    | cons u rest => simp [tail, ih]

theorem zip_eq_interleave (right : List α) :
    ∀ (L : List α) (index : Nat), index ≤ right.length →
      zip right index L = interleave L (right.drop index) := by
  intro L
  induction L with
  | nil =>
    intro index hle
    rw [zip, slice_eq]
    simp only [interleave]
    apply List.take_of_length_le
    simp
  | cons u rest ih =>
    intro index hle
    by_cases h : index = right.length
    · rw [zip, if_pos h, h, List.drop_length]
      simp [interleave]
    · have hlt : index < right.length := lt_of_le_of_ne hle h
      have hdrop : right.drop index = right.get ⟨index, hlt⟩ :: right.drop (index + 1) :=
        List.drop_eq_getElem_cons hlt
      rw [zip, if_neg h, try_at_eq, hdrop]
      simp only [interleave]
      rw [ih (index + 1) hlt]
      rfl

theorem skip_zero_one_interleave :
    ∀ (A B : List α), B.length ≤ A.length → A.length ≤ B.length + 1 →
      skip 0 1 (interleave A B) = A := by
  intro A
  induction A with
  | nil =>
    intro B h1 _
    have : B = [] := List.length_eq_zero.mp (Nat.le_zero.mp h1)
    subst this
    simp [interleave, skip]
  | cons a as ih =>
    intro B h1 h2
    cases B with
    | nil =>
      have : as = [] := List.length_eq_zero.mp (Nat.le_zero.mp (by simpa using h2))
      subst this
      simp [interleave, skip]
    | cons b bs =>
      have e1 : interleave (a :: as) (b :: bs) = a :: b :: interleave as bs := by
        simp [interleave]
      have e2 : skip 0 1 (a :: b :: interleave as bs)
          = a :: skip 0 1 (interleave as bs) := by
        simp [skip]
      rw [e1, e2, ih bs (by simp at h1 ⊢; omega) (by simp at h2 ⊢; omega)]

/-- C5: `zip` interleaves the two lists starting with the owner list and
appends the remainder of the longer one; for equal sizes, `unzip<1, 0>` and
`unzip<1, 1>` recover the two original lists from the interleaving. -/
theorem zip_interleaves_and_unzip_round_trip (A B : List α) :
    zip B 0 A = interleave A B
    ∧ (A.length = B.length →
        unzip 1 0 (zip B 0 A) = A ∧ unzip 1 1 (zip B 0 A) = B) := by
  have hz : zip B 0 A = interleave A B := by
    rw [zip_eq_interleave B A 0 (Nat.zero_le _)]
    simp
  refine ⟨hz, fun hlen => ?_⟩
  rw [hz]
  constructor
  · rw [unzip]
    have h0 : (if 0 < (interleave A B).length then 0 else (interleave A B).length) = 0 := by
      rcases Nat.eq_zero_or_pos (interleave A B).length with h | h
      · simp [h]
      · simp [h]
    rw [h0, tail]
    exact skip_zero_one_interleave A B (le_of_eq hlen.symm) (by omega)
  · cases A with
    | nil =>
      have : B = [] := List.length_eq_zero.mp (by simpa using hlen.symm)
      subst this
      simp [interleave, unzip, tail, skip]
    | cons a as =>
      cases B with
      | nil => simp at hlen
      | cons b bs =>
        have hlen' : as.length = bs.length := by simpa using hlen
        rw [interleave, unzip]
        have hpos : 0 < (a :: interleave (b :: bs) as).length + 0 := by simp
        have h1 : (if 1 < (a :: interleave (b :: bs) as).length
            then 1 else (a :: interleave (b :: bs) as).length) = 1 := by
          simp [interleave]
        rw [h1, tail, tail]
        exact skip_zero_one_interleave (b :: bs) as (by simp; omega) (by simp; omega)

/-- Closed instance of `zip_interleaves_and_unzip_round_trip`. -/
theorem zip_interleaves_and_unzip_round_trip_witness :
    zip [4, 5, 6] 0 [1, 2, 3] = interleave [1, 2, 3] [4, 5, 6]
    ∧ (([1, 2, 3] : List Nat).length = ([4, 5, 6] : List Nat).length →
        unzip 1 0 (zip [4, 5, 6] 0 [1, 2, 3]) = [1, 2, 3]
        ∧ unzip 1 1 (zip [4, 5, 6] 0 [1, 2, 3]) = [4, 5, 6]) :=
  zip_interleaves_and_unzip_round_trip [1, 2, 3] [4, 5, 6]

/-- Universe of C++ types for the `flatten` claims: a type is either an opaque
non-list type (`atom`) or an instantiation `type_list<Args...>` (`list`).  This
is the least structure on which `flatten`'s behaviour — which dispatches on
whether an element is itself a `type_list` — can be stated. -/
inductive TType : Type where
  | atom : Nat → TType
  | list : List TType → TType

/-- Tells whether a `TType` is an instantiation of `type_list`. -/
def is_list_type : TType → Bool
  | TType.list _ => true
  | TType.atom _ => false

/-- Embeds `detail::type_list_impl::flatten<Depth, MaxDepth, ...>`
(list.h:611-643): when the head is a `type_list` and the depth budget is not
exhausted, its elements are flattened one level deeper and concatenated with
the flattened remainder; a non-list head is kept; at `Depth == MaxDepth` the
remaining list is yielded unchanged. -/
def flatten (depth maxDepth : Nat) : List TType → List TType
  | [] => []
  | TType.list args :: rest =>
    if depth = maxDepth then TType.list args :: rest
    else flatten (depth + 1) maxDepth args ++ flatten depth maxDepth rest
  | TType.atom n :: rest =>
    if depth = maxDepth then TType.atom n :: rest
    else TType.atom n :: flatten depth maxDepth rest

/-- Modelled from the spec: the recursive depth-first, left-to-right traversal
of nested `type_list`s, the claimed element order of `flatten<>` with the
default (maximum) depth. -/
def flatten_spec : List TType → List TType
  | [] => []
  | TType.list args :: rest => flatten_spec args ++ flatten_spec rest
  | TType.atom n :: rest => TType.atom n :: flatten_spec rest

mutual

/-- Nesting depth of one element: 0 for a non-list type, one more than the
nesting depth of the contents for a `type_list`. -/
def elemDepth : TType → Nat
  | TType.atom _ => 0
  | TType.list args => 1 + listDepth args

/-- Maximum nesting depth over the elements of a list. -/
def listDepth : List TType → Nat
  | [] => 0
  | t :: rest => max (elemDepth t) (listDepth rest)

end

theorem flatten_spec_of_depth_zero :
    ∀ L : List TType, listDepth L = 0 → flatten_spec L = L := by
  intro L
  induction L with
  | nil => intro _; rw [flatten_spec]
  | cons t rest ih =>
    intro h
    cases t with
    | atom n =>
      rw [flatten_spec, ih]
      rw [listDepth] at h
      omega
    | list args =>
      rw [listDepth, elemDepth] at h
      omega

theorem flatten_spec_no_lists :
    ∀ L : List TType, ∀ t ∈ flatten_spec L, is_list_type t = false := by
  intro L
  induction L using flatten_spec.induct with
  | case1 => intro t ht; simp [flatten_spec] at ht
  | case2 args rest ih1 ih2 =>
    intro t ht
    rw [flatten_spec] at ht
    rcases List.mem_append.mp ht with h | h
    · exact ih1 t h
    · exact ih2 t h
  | case3 n rest ih =>
    intro t ht
    rw [flatten_spec] at ht
    rcases List.mem_cons.mp ht with rfl | h
    · rfl
    · exact ih t h

theorem flatten_eq_spec :
    ∀ (L : List TType) (d M : Nat), d + listDepth L ≤ M →
      flatten d M L = flatten_spec L := by
  intro L
  induction L using flatten_spec.induct with
  | case1 => intro d M _; rw [flatten, flatten_spec]
  | case2 args rest ih1 ih2 =>
    intro d M h
    rw [listDepth, elemDepth] at h
    have hne : d ≠ M := by omega
    rw [flatten, if_neg hne, flatten_spec, ih1 (d + 1) M (by omega),
      ih2 d M (by omega)]
  | case3 n rest ih =>
    intro d M h
    rw [listDepth] at h
    by_cases hd : d = M
    · have h0 : listDepth rest = 0 := by
        rw [elemDepth] at h
        omega
      rw [flatten, if_pos hd, flatten_spec, flatten_spec_of_depth_zero rest h0]
    · rw [flatten, if_neg hd, flatten_spec, ih d M (by rw [elemDepth] at h; omega)]

/-- C6: `flatten<0>` leaves the list unchanged, and with the default depth
(`std::numeric_limits<std::size_t>::max()`, i.e. `2^64 - 1` on the usual
64-bit `size_t`, which dominates any finite nesting) `flatten` performs the
full depth-first left-to-right traversal, so no element of the result is
itself a `type_list`. -/
theorem flatten_depth_zero_and_full (L : List TType) :
    flatten 0 0 L = L
    ∧ (listDepth L ≤ 2 ^ 64 - 1 →
        flatten 0 (2 ^ 64 - 1) L = flatten_spec L
        ∧ ∀ t ∈ flatten 0 (2 ^ 64 - 1) L, is_list_type t = false) := by
  constructor
  · cases L with
    | nil => rw [flatten]
    | cons t rest =>
      cases t with
      | atom n => rw [flatten, if_pos rfl]
      | list args => rw [flatten, if_pos rfl]
  · intro h
    have he := flatten_eq_spec L 0 (2 ^ 64 - 1) (by omega)
    refine ⟨he, ?_⟩
    rw [he]
    exact flatten_spec_no_lists L

/-- Closed instance of `flatten_depth_zero_and_full` on a nested list. -/
theorem flatten_depth_zero_and_full_witness :
    flatten 0 0 [TType.atom 0, TType.list [TType.atom 1, TType.list [TType.atom 2]]]
        = [TType.atom 0, TType.list [TType.atom 1, TType.list [TType.atom 2]]]
    ∧ (listDepth [TType.atom 0, TType.list [TType.atom 1, TType.list [TType.atom 2]]]
          ≤ 2 ^ 64 - 1 →
        flatten 0 (2 ^ 64 - 1)
            [TType.atom 0, TType.list [TType.atom 1, TType.list [TType.atom 2]]]
          = flatten_spec
            [TType.atom 0, TType.list [TType.atom 1, TType.list [TType.atom 2]]]
        ∧ ∀ t ∈ flatten 0 (2 ^ 64 - 1)
            [TType.atom 0, TType.list [TType.atom 1, TType.list [TType.atom 2]]],
            is_list_type t = false) :=
  flatten_depth_zero_and_full
    [TType.atom 0, TType.list [TType.atom 1, TType.list [TType.atom 2]]]

/-- Embeds `detail::type_list_impl::search<TFilter, TDefault, ...>`
(list.h:546-562): the first element accepted by the filter, or the default. -/
def search (p : α → Bool) (dflt : α) : List α → α
  | [] => dflt
  | u :: rest => if p u then u else search p dflt rest

/-- Embeds `type_map::contains<T>` (map.h:349-350): `keys::template
contains<T>`, where `keys` is `contents` transformed by `type_get_first`
(map.h:243), i.e. the list of first components. -/
def map_contains [DecidableEq α] (M : List (α × α)) (key : α) : Bool :=
  contains key (M.map Prod.fst)

/-- Embeds `type_map::find<TKey, TDefault>` (map.h:328-334):
`contents::search` with the filter `curried_key_filter<std::is_same,
TKey>` (map.h:56-60, `std::is_same<first, TKey>`) and the default pair
`type_pair<void, TDefault>`, of which the second component is taken.
`voidT` models the C++ type `void` used in that default pair; the result never
depends on it. -/
def find [DecidableEq α] (voidT : α) (M : List (α × α)) (key dflt : α) : α :=
  (search (fun pr => decide (pr.1 = key)) (voidT, dflt) M).2

theorem find_eq_lookup [DecidableEq α] (voidT : α) (key dflt : α) :
    ∀ M : List (α × α), find voidT M key dflt = (M.lookup key).getD dflt := by
  intro M
  induction M with
  | nil => simp [find, search]
  | cons pr rest ih =>
    obtain ⟨k, v⟩ := pr
    by_cases h : k = key
    · subst h
      simp [find, search, List.lookup_cons]
    · have hbeq : (key == k) = false := by
        simp [BEq.beq]
        exact fun hk => h hk.symm
      rw [find, search, if_neg (by simpa using h), List.lookup_cons]
      rw [hbeq]
      exact ih

theorem map_contains_eq_lookup [DecidableEq α] (key : α) :
    ∀ M : List (α × α), map_contains M key = (M.lookup key).isSome := by
  intro M
  induction M with
  | nil => simp [map_contains, contains]
  | cons pr rest ih =>
    obtain ⟨k, v⟩ := pr
    by_cases h : k = key
    · subst h
      simp [map_contains, contains, List.lookup_cons]
    · have hbeq : (key == k) = false := by
        simp [BEq.beq]
        exact fun hk => h hk.symm
      rw [map_contains, List.map_cons, contains, if_neg (fun hk => h hk.symm),
        List.lookup_cons, hbeq]
      exact ih

theorem lookup_val_of_key [DecidableEq α] (key : α) :
    ∀ (M : List (α × α)) (v : α), M.lookup key = some v →
      ∃ pr ∈ M, pr.1 = key ∧ pr.2 = v := by
  intro M
  induction M with
  | nil => intro v h; simp at h
  | cons pr rest ih =>
    obtain ⟨k, b⟩ := pr
    intro v h
    rw [List.lookup_cons] at h
    by_cases hk : key = k
    · have hbeq : (key == k) = true := by simpa using hk
      rw [hbeq] at h
      simp only [] at h
      exact ⟨(k, b), List.mem_cons_self _ _, hk.symm, by simpa using h⟩
    · have hbeq : (key == k) = false := by simpa using hk
      rw [hbeq] at h
      obtain ⟨q, hq, hq1, hq2⟩ := ih v h
      exact ⟨q, List.mem_cons_of_mem _ hq, hq1, hq2⟩

/-- Counterexample to C8 as stated: in the map `{0 ↦ 1}` with default `1`,
`find` does return the default even though the key is present, so "returns
`TDefault` if and only if the map contains no pair with the key" fails in the
only-if direction when the default coincides with a mapped type. -/
theorem find_default_iff_contains_counterexample :
    ¬ ((find 0 [((0 : Nat), (1 : Nat))] 0 1 = 1)
        ↔ (map_contains [((0 : Nat), (1 : Nat))] 0 = false)) := by
  decide

/-- C8 (amended): `find<TKey, TDefault>` returns the mapped type of the first
pair whose key is `TKey` (the association-list lookup); when no pair has key
`TKey` — equivalently when `contains<TKey>` is false — it returns `TDefault`;
and the claimed "if and only if" holds under the proviso that `TDefault` is not
itself a type mapped to `TKey` in the map. -/
theorem find_first_pair_and_default [DecidableEq α]
    (voidT : α) (M : List (α × α)) (key dflt : α) :
    (∀ v, M.lookup key = some v → find voidT M key dflt = v)
    ∧ (map_contains M key = false ↔ M.lookup key = none)
    ∧ (M.lookup key = none → find voidT M key dflt = dflt)
    ∧ ((∀ pr ∈ M, pr.1 = key → pr.2 ≠ dflt) →
        (find voidT M key dflt = dflt ↔ map_contains M key = false)) := by
  have hfind := find_eq_lookup voidT key dflt M
  have hcont := map_contains_eq_lookup key M
  refine ⟨?_, ?_, ?_, ?_⟩
  · intro v hv
    rw [hfind, hv]
    rfl
  · rw [hcont]
    cases M.lookup key <;> simp
  · intro hnone
    rw [hfind, hnone]
    rfl
  · intro hne
    constructor
    · intro hd
      rw [hcont]
      cases hv : M.lookup key with
      | none => simp
      | some v =>
        obtain ⟨pr, hpr, h1, h2⟩ := lookup_val_of_key key M v hv
        rw [hfind, hv] at hd
        exact absurd (h2.trans hd) (hne pr hpr h1)
    · intro hc
      have hnone : M.lookup key = none := by
        rw [hcont] at hc
        cases hv : M.lookup key with
        | none => rfl
        | some v => rw [hv] at hc; simp at hc
      rw [hfind, hnone]
      rfl

theorem contains_iff_mem [DecidableEq α] (t : α) :
    ∀ L : List α, contains t L = true ↔ t ∈ L := by
  intro L
  induction L with
  | nil => simp [contains]
  | cons u rest ih =>
    by_cases h : t = u
    · subst h
      simp [contains]
    · rw [contains, if_neg h]
      simp [ih, h]

/-- Embeds `detail::type_map_impl::cluster<...>` (map.h:124-149) as used by
`type_map::cluster<>` with identity transforms (map.h:650-656): the tail of the
map is clustered first; if the clustered tail already contains the head's key,
`transform_at` (map.h:79-89) appends the head's mapped type to that key's list
via `cluster_transform::add` (`push_back`, map.h:124-128); otherwise the pair
`(key, type_list<mapped>)` is appended at the end (`push_back`,
map.h:?: `tail::push_back<key, type_list<mapped>>`). -/
def cluster [DecidableEq α] : List (α × α) → List (α × List α)
  | [] => []
  | (k, v) :: rest =>
    let tl := cluster rest
    if contains k (tl.map Prod.fst) then
      tl.map (fun pr => if pr.1 = k then (pr.1, pr.2 ++ [v]) else pr)
    else tl ++ [(k, [v])]

theorem cluster_keys_count [DecidableEq α] :
    ∀ (M : List (α × α)) (k : α),
      ((cluster M).map Prod.fst).count k
        = if k ∈ M.map Prod.fst then 1 else 0 := by
  intro M
  induction M with
  | nil => intro k; simp [cluster]
  | cons p rest ih =>
    obtain ⟨k0, v⟩ := p
    intro k
    have hmemtail : ∀ k', k' ∈ (cluster rest).map Prod.fst ↔ k' ∈ rest.map Prod.fst := by
      intro k'
      constructor
      · intro h
        have := List.count_pos_iff.mpr h
        rw [ih k'] at this
        by_contra hmem
        rw [if_neg hmem] at this
        omega
      · intro h
        apply List.count_pos_iff.mp
        rw [ih k', if_pos h]
        omega
    rw [cluster]
    by_cases hc : contains k0 ((cluster rest).map Prod.fst) = true
    · rw [if_pos hc]
      have hkeys :
          ((cluster rest).map (fun pr => if pr.1 = k0 then (pr.1, pr.2 ++ [v]) else pr)).map
              Prod.fst
            = (cluster rest).map Prod.fst := by
        rw [List.map_map]
        apply List.map_congr_left
        intro pr _
        by_cases h : pr.1 = k0 <;> simp [h]
      rw [hkeys, ih k]
      have hk0 : k0 ∈ rest.map Prod.fst :=
        (hmemtail k0).mp ((contains_iff_mem _ _).mp hc)
      by_cases h : k = k0
      · subst h
        rw [if_pos hk0, if_pos (by simp [hk0])]
      · by_cases hmem : k ∈ rest.map Prod.fst
        · rw [if_pos hmem, if_pos (by simp [hmem])]
        · rw [if_neg hmem, if_neg (by simp [hmem, h])]
    · rw [if_neg hc]
      have hk0 : k0 ∉ rest.map Prod.fst := by
        intro hmem
        exact hc ((contains_iff_mem _ _).mpr ((hmemtail k0).mpr hmem))
      rw [List.map_append, List.count_append, ih k]
      by_cases h : k = k0
      · subst h
        rw [if_neg hk0, if_pos (by simp)]
        simp
      · have hkk : (k0 == k) = false := by
          simp only [beq_eq_false_iff_ne, ne_eq]
          exact fun hk => h hk.symm
        simp only [List.map_cons, List.map_nil, List.count_singleton, hkk]
        by_cases hmem : k ∈ rest.map Prod.fst <;> simp [hmem, h]

theorem cluster_keys_mem [DecidableEq α] (M : List (α × α)) (k : α) :
    k ∈ (cluster M).map Prod.fst ↔ k ∈ M.map Prod.fst := by
  constructor
  · intro h
    have := List.count_pos_iff.mpr h
    rw [cluster_keys_count M k] at this
    by_contra hmem
    rw [if_neg hmem] at this
    omega
  · intro h
    apply List.count_pos_iff.mp
    rw [cluster_keys_count M k, if_pos h]
    omega

theorem filter_key_of_not_mem [DecidableEq α] (k : α) :
    ∀ M : List (α × α), k ∉ M.map Prod.fst →
      M.filter (fun q => decide (q.1 = k)) = [] := by
  intro M
  induction M with
  | nil => intro _; rfl
  | cons p rest ih =>
    obtain ⟨k1, v1⟩ := p
    intro h
    have h1 : k1 ≠ k := by
      intro hk
      exact h (by simp [hk])
    rw [List.filter_cons]
    simp only [decide_eq_true_eq]
    rw [if_neg h1]
    exact ih (fun hmem => h (List.mem_cons_of_mem _ hmem))

theorem cluster_entries [DecidableEq α] :
    ∀ (M : List (α × α)), ∀ pr ∈ cluster M,
      pr.2 = ((M.filter (fun q => decide (q.1 = pr.1))).map Prod.snd).reverse := by
  intro M
  induction M with
  | nil => intro pr h; simp [cluster] at h
  | cons p rest ih =>
    obtain ⟨k0, v⟩ := p
    intro pr hpr
    rw [cluster] at hpr
    by_cases hc : contains k0 ((cluster rest).map Prod.fst) = true
    · rw [if_pos hc] at hpr
      obtain ⟨q, hq, hfq⟩ := List.mem_map.mp hpr
      by_cases h : q.1 = k0
      · rw [if_pos h] at hfq
        rw [← hfq]
        dsimp only
        rw [List.filter_cons]
        simp only [decide_eq_true_eq]
        rw [if_pos h.symm, List.map_cons, List.reverse_cons, ih q hq]
      · rw [if_neg h] at hfq
        rw [← hfq]
        rw [List.filter_cons]
        simp only [decide_eq_true_eq]
        rw [if_neg (fun hk => h hk.symm)]
        exact ih q hq
    · rw [if_neg hc] at hpr
      rcases List.mem_append.mp hpr with hmem | hmem
      · have hpr1 : pr.1 ≠ k0 := by
          intro hk
          apply hc
          apply (contains_iff_mem _ _).mpr
          rw [← hk]
          exact List.mem_map_of_mem Prod.fst hmem
        rw [List.filter_cons]
        simp only [decide_eq_true_eq]
        rw [if_neg (fun hk => hpr1 hk.symm)]
        exact ih pr hmem
      · have hpr' : pr = (k0, [v]) := by simpa using hmem
        subst hpr'
        have hk0 : k0 ∉ rest.map Prod.fst := by
          intro hmem'
          exact hc ((contains_iff_mem _ _).mpr ((cluster_keys_mem rest k0).mpr hmem'))
        dsimp only
        rw [List.filter_cons]
        simp only [decide_eq_true_eq]
        simp [filter_key_of_not_mem _ rest hk0]

/-- C7: `cluster<>` with identity transforms maps every distinct key of the
map to exactly one entry (a key occurs exactly once among the result's keys
when present in the original map, zero times otherwise), each entry's list
holds exactly the mapped types paired with that key (with multiplicity), and
no entry carries a key that is absent from the original map. -/
theorem cluster_groups_by_key [DecidableEq α] (M : List (α × α)) :
    (∀ k, ((cluster M).map Prod.fst).count k
        = if k ∈ M.map Prod.fst then 1 else 0)
    ∧ (∀ pr ∈ cluster M,
        pr.2.Perm ((M.filter (fun q => decide (q.1 = pr.1))).map Prod.snd))
    ∧ (∀ pr ∈ cluster M, pr.1 ∈ M.map Prod.fst) := by
  refine ⟨cluster_keys_count M, ?_, ?_⟩
  · intro pr hpr
    rw [cluster_entries M pr hpr]
    exact List.reverse_perm _
  · intro pr hpr
    exact (cluster_keys_mem M pr.1).mp (List.mem_map_of_mem Prod.fst hpr)

/-- Closed instance of `cluster_groups_by_key` on a map with a repeated key. -/
theorem cluster_groups_by_key_witness :
    (∀ k, ((cluster [(1, 10), (2, 20), (1, 11)]).map Prod.fst).count k
        = if k ∈ ([(1, 10), (2, 20), (1, 11)] : List (Nat × Nat)).map Prod.fst
          then 1 else 0)
    ∧ (∀ pr ∈ cluster [(1, 10), (2, 20), (1, 11)],
        pr.2.Perm ((([(1, 10), (2, 20), (1, 11)] : List (Nat × Nat)).filter
          (fun q => decide (q.1 = pr.1))).map Prod.snd))
    ∧ (∀ pr ∈ cluster [(1, 10), (2, 20), (1, 11)],
        pr.1 ∈ ([(1, 10), (2, 20), (1, 11)] : List (Nat × Nat)).map Prod.fst) :=
  cluster_groups_by_key [(1, 10), (2, 20), (1, 11)]

/-- Closed instance of `find_first_pair_and_default`. -/
theorem find_first_pair_and_default_witness :
    (∀ v, ([((0 : Nat), (7 : Nat)), (1, 8)].lookup 0 = some v →
        find 5 [(0, 7), (1, 8)] 0 9 = v))
    ∧ (map_contains [((0 : Nat), (7 : Nat)), (1, 8)] 0 = false
        ↔ [((0 : Nat), (7 : Nat)), (1, 8)].lookup 0 = none)
    ∧ ([((0 : Nat), (7 : Nat)), (1, 8)].lookup 0 = none →
        find 5 [(0, 7), (1, 8)] 0 9 = 9)
    ∧ ((∀ pr ∈ [((0 : Nat), (7 : Nat)), (1, 8)], pr.1 = 0 → pr.2 ≠ 9) →
        (find 5 [(0, 7), (1, 8)] 0 9 = 9
          ↔ map_contains [((0 : Nat), (7 : Nat)), (1, 8)] 0 = false)) :=
  find_first_pair_and_default 5 [(0, 7), (1, 8)] 0 9

/-- Embeds `flag_set::mask_for<IgnoreUnsupported, UFlags...>`
(flag_set.h:63-79): the bitwise or, over the given flags, of `1 <<
index_of<UFlag>` when `index_of<UFlag> < size` and `0` otherwise.
`bitwise_or_constants` lives in `fatal/math/numerics.h`, which is not part of
the sources; modelled from the spec as the fold of bitwise-or starting from
the initial constant `0`.  (The `enable_if` only rejects ill-formed
instantiations; it does not change the computed value, so the model keeps the
value alone.) -/
def mask_for [DecidableEq τ] (tags us : List τ) : Nat :=
  us.foldr
    (fun u acc =>
      (if index_of 0 u tags < tags.length then 2 ^ index_of 0 u tags else 0) ||| acc)
    0

/-- Embeds the default constructor `flag_set()` (flag_set.h:112): all flags
unset. -/
def flag_set_default : Nat := 0

/-- Embeds the variadic constructor `flag_set(UFlags &&...)`
(flag_set.h:127-133): `mask_for<false, UFlags...>`. -/
def flag_set_ctor [DecidableEq τ] (tags us : List τ) : Nat := mask_for tags us

/-- Embeds `flag_set::clear()` (flag_set.h:140): `flags_ = 0`. -/
def flag_set_clear : Nat := 0

/-- Embeds `flag_set::set<UFlags...>()` (flag_set.h:208-213): `flags_ |=
mask_for<false, UFlags...>`. -/
def flag_set_set [DecidableEq τ] (tags : List τ) (flags : Nat) (us : List τ) : Nat :=
  flags ||| mask_for tags us

/-- Embeds `flag_set::set_if<UFlag>(condition)` (flag_set.h:249-256): `set`
when the condition holds, otherwise unchanged. -/
def flag_set_set_if [DecidableEq τ] (tags : List τ) (flags : Nat) (u : τ)
    (cond : Bool) : Nat :=
  if cond then flag_set_set tags flags [u] else flags

/-- Embeds `flag_set::reset<UFlags...>()` (flag_set.h:316-320): `flags_ =
mask_for<false, UFlags...>`. -/
def flag_set_reset [DecidableEq τ] (tags us : List τ) : Nat := mask_for tags us

/-- Embeds `flag_set::import_foreign<UFlags...>` (flag_set.h:81-104): fold
over the foreign flag list, or-ing in `mask_for<true, UFlag>` (over this set's
tags) for every foreign flag that is set; `isSetF` abstracts
`foreign.is_set<UFlag>()`. -/
def flag_set_import_foreign [DecidableEq τ] (tags ftags : List τ)
    (isSetF : τ → Bool) : Nat :=
  ftags.foldl (fun acc u => if isSetF u then acc ||| mask_for tags [u] else acc) 0

/-- Embeds the homogeneous assignment `operator =(flag_set const &)`
(flag_set.h:502-507): copies the other set's integral representation. -/
def flag_set_assign (rhsFlags : Nat) : Nat := rhsFlags

theorem mask_for_lt [DecidableEq τ] (tags : List τ) :
    ∀ us : List τ, mask_for tags us < 2 ^ tags.length := by
  intro us
  induction us with
  | nil => exact Nat.two_pow_pos _
  | cons u rest ih =>
    rw [mask_for, List.foldr_cons]
    apply Nat.or_lt_two_pow _ ih
    by_cases h : index_of 0 u tags < tags.length
    · rw [if_pos h]
      exact Nat.pow_lt_pow_right (by omega) h
    · rw [if_neg h]
      exact Nat.two_pow_pos _

theorem flag_set_import_foreign_lt [DecidableEq τ] (tags : List τ)
    (isSetF : τ → Bool) :
    ∀ (ftags : List τ) (acc : Nat), acc < 2 ^ tags.length →
      ftags.foldl (fun acc u => if isSetF u then acc ||| mask_for tags [u] else acc)
          acc < 2 ^ tags.length := by
  intro ftags
  induction ftags with
  | nil => intro acc hacc; exact hacc
  | cons u rest ih =>
    intro acc hacc
    rw [List.foldl_cons]
    apply ih
    by_cases h : isSetF u
    · rw [if_pos h]
      exact Nat.or_lt_two_pow hacc (mask_for_lt tags [u])
    · rw [if_neg h]
      exact hacc

theorem testBit_false_of_lt {x n i : Nat} (hx : x < 2 ^ n) (hi : n ≤ i) :
    x.testBit i = false :=
  Nat.testBit_lt_two_pow (lt_of_lt_of_le hx (Nat.pow_le_pow_right (by omega) hi))

/-- C9: every `flag_set` operation — default and variadic construction,
construction/assignment from a foreign set, `set`, `set_if`, `reset`, `clear`
— keeps the integral representation free of bits at positions at or above the
number of supported flags (`get() & ~(2^n - 1) == 0` over the `n = size`
supported flags). -/
theorem flag_set_ops_no_high_bits [DecidableEq τ] (tags : List τ) (flags : Nat)
    (hflags : flags < 2 ^ tags.length) (us : List τ) (u : τ) (cond : Bool)
    (ftags : List τ) (isSetF : τ → Bool) :
    ∀ i, tags.length ≤ i →
      flag_set_default.testBit i = false
      ∧ (flag_set_ctor tags us).testBit i = false
      ∧ flag_set_clear.testBit i = false
      ∧ (flag_set_set tags flags us).testBit i = false
      ∧ (flag_set_set_if tags flags u cond).testBit i = false
      ∧ (flag_set_reset tags us).testBit i = false
      ∧ (flag_set_import_foreign tags ftags isSetF).testBit i = false
      ∧ (flag_set_assign flags).testBit i = false := by
  intro i hi
  have hzero : (0 : Nat) < 2 ^ tags.length := Nat.two_pow_pos _
  refine ⟨testBit_false_of_lt hzero hi,
    testBit_false_of_lt (mask_for_lt tags us) hi,
    testBit_false_of_lt hzero hi,
    testBit_false_of_lt (Nat.or_lt_two_pow hflags (mask_for_lt tags us)) hi,
    ?_,
    testBit_false_of_lt (mask_for_lt tags us) hi,
    testBit_false_of_lt (flag_set_import_foreign_lt tags isSetF ftags 0 hzero) hi,
    testBit_false_of_lt hflags hi⟩
  cases cond with
  | true =>
    exact testBit_false_of_lt
      (Nat.or_lt_two_pow hflags (mask_for_lt tags [u])) hi
  | false => exact testBit_false_of_lt hflags hi

/-- Closed instance of `flag_set_ops_no_high_bits` over three flags. -/
theorem flag_set_ops_no_high_bits_witness :
    (5 : Nat) < 2 ^ ([10, 11, 12] : List Nat).length
    ∧ (flag_set_default.testBit 3 = false
      ∧ (flag_set_ctor [10, 11, 12] [12, 10]).testBit 3 = false
      ∧ flag_set_clear.testBit 3 = false
      ∧ (flag_set_set [10, 11, 12] 5 [12, 10]).testBit 3 = false
      ∧ (flag_set_set_if [10, 11, 12] 5 11 true).testBit 3 = false
      ∧ (flag_set_reset [10, 11, 12] [12, 10]).testBit 3 = false
      ∧ (flag_set_import_foreign [10, 11, 12] [12, 99] (fun _ => true)).testBit 3
          = false
      ∧ (flag_set_assign 5).testBit 3 = false) :=
  ⟨by decide,
    flag_set_ops_no_high_bits [10, 11, 12] 5 (by decide) [12, 10] 11 true
      [12, 99] (fun _ => true) 3 (by decide)⟩

/-- Embeds `detail::type_list_impl::binary_search_exact` together with
`type_list::binary_search<TComparer>::exact` (list.h:857-933, 2192-2203): the
list is split at `size / 2`; the pivot is the first element of the second
half, carrying absolute index `Offset + left::size`; a negative comparison
recurses into the left part, a positive one into the part after the pivot with
the offset advanced past it, and on zero the visitor is invoked on the pivot's
`indexed_type_tag` and `true` is returned.  The returned event list records
each visitor invocation as (element, absolute index); the empty specialisation
returns `false` without calling the visitor. -/
def binary_search_exact (cmp : α → Int) (offset : Nat) (L : List α) :
    Bool × List (α × Nat) :=
  if h : L.length = 0 then (false, [])
  else
    have hn : L.length / 2 < L.length :=
      Nat.div_lt_self (Nat.pos_of_ne_zero h) (by omega)
    let c := cmp (L.get ⟨L.length / 2, hn⟩)
    if c < 0 then binary_search_exact cmp offset (L.take (L.length / 2))
    else if 0 < c then
      binary_search_exact cmp (offset + L.length / 2 + 1) (L.drop (L.length / 2 + 1))
    else (true, [(L.get ⟨L.length / 2, hn⟩, offset + L.length / 2)])
termination_by L.length
decreasing_by
  · simp only [List.length_take]
    omega
  · simp only [List.length_drop]
    omega

theorem get_congr (L : List α) {a b : Nat} (ha : a < L.length) (hb : b < L.length)
    (h : a = b) : L.get ⟨a, ha⟩ = L.get ⟨b, hb⟩ := by
  subst h
  rfl

theorem binary_search_exact_spec (cmp : α → Int) :
    ∀ (N : Nat) (L : List α), L.length = N →
      (∀ i j : Fin L.length, (i : Nat) ≤ (j : Nat) → cmp (L.get j) ≤ cmp (L.get i)) →
      ∀ offset : Nat,
        ((binary_search_exact cmp offset L).1 = true
          ↔ ∃ i : Fin L.length, cmp (L.get i) = 0)
        ∧ ((binary_search_exact cmp offset L).1 = true →
            ∃ i : Fin L.length, cmp (L.get i) = 0
              ∧ (binary_search_exact cmp offset L).2 = [(L.get i, offset + (i : Nat))])
        ∧ ((binary_search_exact cmp offset L).1 = false →
            (binary_search_exact cmp offset L).2 = []) := by
  intro N
  induction N using Nat.strong_induction_on with
  | _ N ih =>
    intro L hlen hmono offset
    by_cases h0 : L.length = 0
    · rw [binary_search_exact, dif_pos h0]
      refine ⟨?_, ?_, ?_⟩
      · simp only [false_iff]
        constructor
        · intro hfalse
          exact absurd hfalse (by simp)
        · rintro ⟨i, -⟩
          exact absurd i.isLt (by omega)
      · intro hfalse
        exact absurd hfalse (by simp)
      · intro _
        rfl
    · have hpos : 0 < L.length := Nat.pos_of_ne_zero h0
      have hn : L.length / 2 < L.length := Nat.div_lt_self hpos (by omega)
      rcases lt_trichotomy (cmp (L.get ⟨L.length / 2, hn⟩)) 0 with hc | hc | hc
      · -- needle below the pivot: recurse into the left half
        have hunfold :
            binary_search_exact cmp offset L
              = binary_search_exact cmp offset (L.take (L.length / 2)) := by
          rw [binary_search_exact, dif_neg h0]
          dsimp only
          rw [if_pos hc]
        have hlt : (L.take (L.length / 2)).length = L.length / 2 := by
          simp only [List.length_take]
          omega
        have hb1 : ∀ i : Fin (L.take (L.length / 2)).length, (i : Nat) < L.length := by
          intro i
          have h2 := i.isLt
          omega
        have hget : ∀ i : Fin (L.take (L.length / 2)).length,
            (L.take (L.length / 2)).get i = L.get ⟨(i : Nat), hb1 i⟩ := by
          intro i
          simp [List.get_eq_getElem]
        have hmono2 : ∀ i j : Fin (L.take (L.length / 2)).length,
            (i : Nat) ≤ (j : Nat) →
            cmp ((L.take (L.length / 2)).get j) ≤ cmp ((L.take (L.length / 2)).get i) := by
          intro i j hij
          rw [hget i, hget j]
          exact hmono _ _ hij
        have hsub := ih (L.length / 2) (by omega) (L.take (L.length / 2)) hlt hmono2 offset
        have hiff : (∃ i : Fin (L.take (L.length / 2)).length,
              cmp ((L.take (L.length / 2)).get i) = 0)
            ↔ ∃ i : Fin L.length, cmp (L.get i) = 0 := by
          constructor
          · rintro ⟨i, hi⟩
            rw [hget i] at hi
            exact ⟨⟨(i : Nat), hb1 i⟩, hi⟩
          · rintro ⟨i, hi⟩
            by_cases hin : (i : Nat) < L.length / 2
            · have hb : (i : Nat) < (L.take (L.length / 2)).length := by
                rw [hlt]
                exact hin
              refine ⟨⟨(i : Nat), hb⟩, ?_⟩
              rw [hget ⟨(i : Nat), hb⟩,
                get_congr L (hb1 ⟨(i : Nat), hb⟩) i.isLt rfl]
              exact hi
            · exfalso
              have hle : cmp (L.get i) ≤ cmp (L.get ⟨L.length / 2, hn⟩) :=
                hmono ⟨L.length / 2, hn⟩ i (by simp; omega)
              omega
        rw [hunfold]
        refine ⟨hsub.1.trans hiff, ?_, hsub.2.2⟩
        intro htrue
        obtain ⟨i, hi, hsnd⟩ := hsub.2.1 htrue
        rw [hget i] at hi hsnd
        exact ⟨⟨(i : Nat), hb1 i⟩, hi, hsnd⟩
      · -- exact match at the pivot
        have hres :
            binary_search_exact cmp offset L
              = (true, [(L.get ⟨L.length / 2, hn⟩, offset + L.length / 2)]) := by
          rw [binary_search_exact, dif_neg h0]
          dsimp only
          rw [if_neg (by omega), if_neg (by omega)]
        rw [hres]
        refine ⟨?_, ?_, ?_⟩
        · simp only [true_iff]
          exact ⟨⟨L.length / 2, hn⟩, hc⟩
        · intro _
          exact ⟨⟨L.length / 2, hn⟩, hc, rfl⟩
        · intro hfalse
          exact absurd hfalse (by simp)
      · -- needle above the pivot: recurse past the pivot
        have hunfold :
            binary_search_exact cmp offset L
              = binary_search_exact cmp (offset + L.length / 2 + 1)
                  (L.drop (L.length / 2 + 1)) := by
          rw [binary_search_exact, dif_neg h0]
          dsimp only
          rw [if_neg (by omega), if_pos hc]
        have hlt : (L.drop (L.length / 2 + 1)).length = L.length - (L.length / 2 + 1) := by
          simp
        have hb1 : ∀ i : Fin (L.drop (L.length / 2 + 1)).length,
            L.length / 2 + 1 + (i : Nat) < L.length := by
          intro i
          have h2 := i.isLt
          omega
        have hget : ∀ i : Fin (L.drop (L.length / 2 + 1)).length,
            (L.drop (L.length / 2 + 1)).get i
              = L.get ⟨L.length / 2 + 1 + (i : Nat), hb1 i⟩ := by
          intro i
          simp [List.get_eq_getElem]
        have hmono2 : ∀ i j : Fin (L.drop (L.length / 2 + 1)).length,
            (i : Nat) ≤ (j : Nat) →
            cmp ((L.drop (L.length / 2 + 1)).get j)
              ≤ cmp ((L.drop (L.length / 2 + 1)).get i) := by
          intro i j hij
          rw [hget i, hget j]
          exact hmono _ _ (by simp; omega)
        have hsub := ih (L.length - (L.length / 2 + 1)) (by omega)
          (L.drop (L.length / 2 + 1)) hlt hmono2 (offset + L.length / 2 + 1)
        have hiff : (∃ i : Fin (L.drop (L.length / 2 + 1)).length,
              cmp ((L.drop (L.length / 2 + 1)).get i) = 0)
            ↔ ∃ i : Fin L.length, cmp (L.get i) = 0 := by
          constructor
          · rintro ⟨i, hi⟩
            rw [hget i] at hi
            exact ⟨⟨L.length / 2 + 1 + (i : Nat), hb1 i⟩, hi⟩
          · rintro ⟨i, hi⟩
            by_cases hin : L.length / 2 + 1 ≤ (i : Nat)
            · have hb : (i : Nat) - (L.length / 2 + 1)
                  < (L.drop (L.length / 2 + 1)).length := by
                rw [hlt]
                have := i.isLt
                omega
              refine ⟨⟨(i : Nat) - (L.length / 2 + 1), hb⟩, ?_⟩
              rw [hget ⟨(i : Nat) - (L.length / 2 + 1), hb⟩,
                get_congr L (hb1 ⟨(i : Nat) - (L.length / 2 + 1), hb⟩) i.isLt
                  (by simp; omega)]
              exact hi
            · exfalso
              have hle : cmp (L.get ⟨L.length / 2, hn⟩) ≤ cmp (L.get i) :=
                hmono i ⟨L.length / 2, hn⟩ (by simp; omega)
              omega
        rw [hunfold]
        refine ⟨hsub.1.trans hiff, ?_, hsub.2.2⟩
        intro htrue
        obtain ⟨i, hi, hsnd⟩ := hsub.2.1 htrue
        rw [hget i] at hi hsnd
        refine ⟨⟨L.length / 2 + 1 + (i : Nat), hb1 i⟩, hi, ?_⟩
        rw [hsnd]
        have : offset + L.length / 2 + 1 + (i : Nat)
            = offset + (L.length / 2 + 1 + (i : Nat)) := by omega
        rw [this]

/-- C2: on a list sorted consistently with the comparer (comparisons against
the needle are antitone in the position), `binary_search<TComparer>::exact`
returns true exactly when some element compares equal to the needle; when it
does, the visitor is called exactly once, with the matching element and its
0-based position in the list; when it returns false the visitor is never
called. -/
theorem binary_search_exact_found_iff (cmp : α → Int) (L : List α)
    (hmono : ∀ i j : Fin L.length, (i : Nat) ≤ (j : Nat) →
      cmp (L.get j) ≤ cmp (L.get i)) :
    ((binary_search_exact cmp 0 L).1 = true
      ↔ ∃ i : Fin L.length, cmp (L.get i) = 0)
    ∧ ((binary_search_exact cmp 0 L).1 = true →
        ∃ i : Fin L.length, cmp (L.get i) = 0
          ∧ (binary_search_exact cmp 0 L).2 = [(L.get i, (i : Nat))])
    ∧ ((binary_search_exact cmp 0 L).1 = false →
        (binary_search_exact cmp 0 L).2 = []) := by
  have h := binary_search_exact_spec cmp L.length L rfl hmono 0
  refine ⟨h.1, ?_, h.2.2⟩
  intro htrue
  obtain ⟨i, hi, hsnd⟩ := h.2.1 htrue
  refine ⟨i, hi, ?_⟩
  rw [hsnd]
  simp

/-- Closed instance of `binary_search_exact_found_iff` on the sorted list
`[10, 20, 30]` with needle `20`. -/
theorem binary_search_exact_found_iff_witness :
    (∀ i j : Fin ([10, 20, 30] : List Int).length, (i : Nat) ≤ (j : Nat) →
        (20 - [10, 20, 30].get j) ≤ (20 - [10, 20, 30].get i))
    ∧ (((binary_search_exact (fun t => 20 - t) 0 [10, 20, 30]).1 = true
        ↔ ∃ i : Fin ([10, 20, 30] : List Int).length, (20 - [10, 20, 30].get i) = 0)
      ∧ ((binary_search_exact (fun t => 20 - t) 0 [10, 20, 30]).1 = true →
          ∃ i : Fin ([10, 20, 30] : List Int).length,
            (20 - [10, 20, 30].get i) = 0
            ∧ (binary_search_exact (fun t => 20 - t) 0 [10, 20, 30]).2
              = [([10, 20, 30].get i, (i : Nat))])
      ∧ ((binary_search_exact (fun t => 20 - t) 0 [10, 20, 30]).1 = false →
          (binary_search_exact (fun t => 20 - t) 0 [10, 20, 30]).2 = [])) :=
  ⟨by decide, binary_search_exact_found_iff (fun t => 20 - t) [10, 20, 30]
    (by decide)⟩

/-- Embeds `detail::type_list_impl::binary_search_lower_bound::recursion`
(list.h:939-1041): the single-element specialisation unconditionally calls the
visitor on its element with absolute index `Offset`; with two or more
elements the list splits at `size / 2`, the pivot being the first element of
the second half; a negative comparison recurses into the first half, otherwise
into the second half (pivot included) with the offset advanced by the first
half's size.  The empty specialisation returns `false`. -/
def binary_search_lower_bound_rec (cmp : α → Int) (offset : Nat) :
    List α → Bool × List (α × Nat)
  | [] => (false, [])
  | [t] => (true, [(t, offset)])
  | t1 :: t2 :: rest =>
    if cmp ((t1 :: t2 :: rest).get
        ⟨(t1 :: t2 :: rest).length / 2,
          Nat.div_lt_self (by simp) (by omega)⟩) < 0 then
      binary_search_lower_bound_rec cmp offset
        ((t1 :: t2 :: rest).take ((t1 :: t2 :: rest).length / 2))
    else
      binary_search_lower_bound_rec cmp (offset + (t1 :: t2 :: rest).length / 2)
        ((t1 :: t2 :: rest).drop ((t1 :: t2 :: rest).length / 2))
termination_by L => L.length
decreasing_by
  · simp only [List.length_take]
    simp
    omega
  · simp only [List.length_drop]
    simp
    omega

/-- Embeds `type_list::binary_search<TComparer>::lower_bound`
(list.h:2241-2252) via `binary_search_lower_bound::search` (list.h:977-1024):
the needle is first compared against the head (absolute index 0); the
recursion only runs — and hence the visitor can only be called — when that
comparison is non-negative; the empty specialisation returns `false`. -/
def binary_search_lower_bound (cmp : α → Int) : List α → Bool × List (α × Nat)
  | [] => (false, [])
  | t :: rest =>
    if 0 ≤ cmp t then binary_search_lower_bound_rec cmp 0 (t :: rest)
    else (false, [])

theorem binary_search_lower_bound_rec_spec (cmp : α → Int) :
    ∀ (N : Nat) (L : List α), L.length = N →
      ∀ hpos : 0 < L.length,
      (∀ i j : Fin L.length, (i : Nat) ≤ (j : Nat) → cmp (L.get j) ≤ cmp (L.get i)) →
      0 ≤ cmp (L.get ⟨0, hpos⟩) →
      ∀ offset : Nat,
        ∃ k : Fin L.length,
          binary_search_lower_bound_rec cmp offset L
              = (true, [(L.get k, offset + (k : Nat))])
          ∧ 0 ≤ cmp (L.get k)
          ∧ ∀ j : Fin L.length, (k : Nat) < (j : Nat) → cmp (L.get j) < 0 := by
  intro N
  induction N using Nat.strong_induction_on with
  | _ N ih =>
    intro L hlen hpos hmono hfirst offset
    match L, hlen with
    | [t], hlen =>
      refine ⟨⟨0, by simp⟩, ?_, ?_, ?_⟩
      · rw [binary_search_lower_bound_rec]
        simp
      · simpa using hfirst
      · intro j hj
        exfalso
        have hj2 : 0 < (j : Nat) := hj
        have h1 : (j : Nat) < 1 := j.isLt
        omega
    | t1 :: t2 :: rest, hlen =>
      have hlen2 : 2 ≤ (t1 :: t2 :: rest).length := by simp
      set L : List α := t1 :: t2 :: rest with hLdef
      have hn1 : 1 ≤ L.length / 2 := by omega
      have hn : L.length / 2 < L.length := Nat.div_lt_self (by omega) (by omega)
      by_cases hc : cmp (L.get ⟨L.length / 2, hn⟩) < 0
      · -- recurse into the first half
        have hunfold :
            binary_search_lower_bound_rec cmp offset L
              = binary_search_lower_bound_rec cmp offset (L.take (L.length / 2)) := by
          rw [hLdef, binary_search_lower_bound_rec]
          rw [if_pos hc]
        have hlt : (L.take (L.length / 2)).length = L.length / 2 := by
          simp only [List.length_take]
          omega
        have hb1 : ∀ i : Fin (L.take (L.length / 2)).length, (i : Nat) < L.length := by
          intro i
          have h2 := i.isLt
          omega
        have hget : ∀ i : Fin (L.take (L.length / 2)).length,
            (L.take (L.length / 2)).get i = L.get ⟨(i : Nat), hb1 i⟩ := by
          intro i
          simp [List.get_eq_getElem]
        have hpos' : 0 < (L.take (L.length / 2)).length := by omega
        have hmono2 : ∀ i j : Fin (L.take (L.length / 2)).length,
            (i : Nat) ≤ (j : Nat) →
            cmp ((L.take (L.length / 2)).get j)
              ≤ cmp ((L.take (L.length / 2)).get i) := by
          intro i j hij
          rw [hget i, hget j]
          exact hmono _ _ hij
        have hfirst' : 0 ≤ cmp ((L.take (L.length / 2)).get ⟨0, hpos'⟩) := by
          rw [hget ⟨0, hpos'⟩]
          rw [get_congr L (hb1 ⟨0, hpos'⟩) hpos rfl]
          exact hfirst
        obtain ⟨k, hk1, hk2, hk3⟩ := ih (L.length / 2) (by omega)
          (L.take (L.length / 2)) hlt hpos' hmono2 hfirst' offset
        rw [hget k] at hk1 hk2
        refine ⟨⟨(k : Nat), hb1 k⟩, ?_, hk2, ?_⟩
        · rw [hunfold, hk1]
        · intro j hj
          by_cases hjn : (j : Nat) < L.length / 2
          · have hjb : (j : Nat) < (L.take (L.length / 2)).length := by omega
            have := hk3 ⟨(j : Nat), hjb⟩ (by exact hj)
            rw [hget ⟨(j : Nat), hjb⟩,
              get_congr L (hb1 ⟨(j : Nat), hjb⟩) j.isLt rfl] at this
            exact this
          · have hle : cmp (L.get j) ≤ cmp (L.get ⟨L.length / 2, hn⟩) :=
              hmono ⟨L.length / 2, hn⟩ j (by simp; omega)
            omega
      · -- recurse into the second half, pivot included
        have hunfold :
            binary_search_lower_bound_rec cmp offset L
              = binary_search_lower_bound_rec cmp (offset + L.length / 2)
                  (L.drop (L.length / 2)) := by
          rw [hLdef, binary_search_lower_bound_rec]
          rw [if_neg hc]
        have hlt : (L.drop (L.length / 2)).length = L.length - L.length / 2 := by
          simp
        have hb1 : ∀ i : Fin (L.drop (L.length / 2)).length,
            L.length / 2 + (i : Nat) < L.length := by
          intro i
          have h2 := i.isLt
          omega
        have hget : ∀ i : Fin (L.drop (L.length / 2)).length,
            (L.drop (L.length / 2)).get i
              = L.get ⟨L.length / 2 + (i : Nat), hb1 i⟩ := by
          intro i
          simp [List.get_eq_getElem]
        have hpos' : 0 < (L.drop (L.length / 2)).length := by omega
        have hmono2 : ∀ i j : Fin (L.drop (L.length / 2)).length,
            (i : Nat) ≤ (j : Nat) →
            cmp ((L.drop (L.length / 2)).get j)
              ≤ cmp ((L.drop (L.length / 2)).get i) := by
          intro i j hij
          rw [hget i, hget j]
          exact hmono _ _ (by simp; omega)
        have hfirst' : 0 ≤ cmp ((L.drop (L.length / 2)).get ⟨0, hpos'⟩) := by
          rw [hget ⟨0, hpos'⟩]
          rw [get_congr L (hb1 ⟨0, hpos'⟩) hn (by simp)]
          omega
        obtain ⟨k, hk1, hk2, hk3⟩ := ih (L.length - L.length / 2) (by omega)
          (L.drop (L.length / 2)) hlt hpos' hmono2 hfirst' (offset + L.length / 2)
        rw [hget k] at hk1 hk2
        refine ⟨⟨L.length / 2 + (k : Nat), hb1 k⟩, ?_, hk2, ?_⟩
        · rw [hunfold, hk1]
          have : offset + L.length / 2 + (k : Nat)
              = offset + (L.length / 2 + (k : Nat)) := by omega
          rw [this]
        · intro j hj
          have hj2 : L.length / 2 + (k : Nat) < (j : Nat) := hj
          have hjb : (j : Nat) - L.length / 2 < (L.drop (L.length / 2)).length := by
            have := j.isLt
            omega
          have := hk3 ⟨(j : Nat) - L.length / 2, hjb⟩
            (by show (k : Nat) < (j : Nat) - L.length / 2; omega)
          rw [hget ⟨(j : Nat) - L.length / 2, hjb⟩,
            get_congr L (hb1 ⟨(j : Nat) - L.length / 2, hjb⟩) j.isLt
              (by simp; omega)] at this
          exact this

/-- C3: on a list sorted consistently with the comparer,
`binary_search<TComparer>::lower_bound` returns true and calls the visitor
exactly once with the element at the greatest position whose comparison
against the needle is non-negative (the greatest element less than or equal to
the needle) together with that 0-based position; it returns false — with the
visitor never called — exactly when the list is empty or the needle compares
below the first element. -/
theorem binary_search_lower_bound_found (cmp : α → Int) (L : List α)
    (hmono : ∀ i j : Fin L.length, (i : Nat) ≤ (j : Nat) →
      cmp (L.get j) ≤ cmp (L.get i)) :
    ((binary_search_lower_bound cmp L).1 = true
      ↔ ∃ h0 : 0 < L.length, 0 ≤ cmp (L.get ⟨0, h0⟩))
    ∧ ((binary_search_lower_bound cmp L).1 = true →
        ∃ k : Fin L.length,
          (binary_search_lower_bound cmp L).2 = [(L.get k, (k : Nat))]
          ∧ 0 ≤ cmp (L.get k)
          ∧ ∀ j : Fin L.length, (k : Nat) < (j : Nat) → cmp (L.get j) < 0)
    ∧ ((binary_search_lower_bound cmp L).1 = false →
        (binary_search_lower_bound cmp L).2 = []) := by
  match L with
  | [] =>
    refine ⟨?_, ?_, ?_⟩
    · rw [binary_search_lower_bound]
      simp
    · intro htrue
      rw [binary_search_lower_bound] at htrue
      exact absurd htrue (by simp)
    · intro _
      rw [binary_search_lower_bound]
  | t :: rest =>
    by_cases h0 : 0 ≤ cmp t
    · have h0' : 0 ≤ cmp ((t :: rest).get ⟨0, by simp⟩) := h0
      obtain ⟨k, hk1, hk2, hk3⟩ :=
        binary_search_lower_bound_rec_spec cmp (t :: rest).length (t :: rest)
          rfl (by simp) hmono h0' 0
      have hunfold : binary_search_lower_bound cmp (t :: rest)
          = binary_search_lower_bound_rec cmp 0 (t :: rest) := by
        rw [binary_search_lower_bound, if_pos h0]
      refine ⟨?_, ?_, ?_⟩
      · rw [hunfold, hk1]
        simp only [true_iff]
        exact ⟨by simp, h0'⟩
      · intro _
        refine ⟨k, ?_, hk2, hk3⟩
        rw [hunfold, hk1]
        simp
      · intro hfalse
        rw [hunfold, hk1] at hfalse
        exact absurd hfalse (by simp)
    · have hunfold : binary_search_lower_bound cmp (t :: rest) = (false, []) := by
        rw [binary_search_lower_bound, if_neg h0]
      refine ⟨?_, ?_, ?_⟩
      · rw [hunfold]
        constructor
        · intro hfalse
          exact absurd hfalse (by simp)
        · rintro ⟨h1, h2⟩
          exact absurd h2 h0
      · intro htrue
        rw [hunfold] at htrue
        exact absurd htrue (by simp)
      · intro _
        rw [hunfold]

/-- Closed instance of `binary_search_lower_bound_found` on the sorted list
`[10, 30, 50, 70]` with needle `68`. -/
theorem binary_search_lower_bound_found_witness :
    (∀ i j : Fin ([10, 30, 50, 70] : List Int).length, (i : Nat) ≤ (j : Nat) →
        (68 - [10, 30, 50, 70].get j) ≤ (68 - [10, 30, 50, 70].get i))
    ∧ (((binary_search_lower_bound (fun t => 68 - t) [10, 30, 50, 70]).1 = true
        ↔ ∃ h0 : 0 < ([10, 30, 50, 70] : List Int).length,
            0 ≤ (68 - [10, 30, 50, 70].get ⟨0, h0⟩))
      ∧ ((binary_search_lower_bound (fun t => 68 - t) [10, 30, 50, 70]).1 = true →
          ∃ k : Fin ([10, 30, 50, 70] : List Int).length,
            (binary_search_lower_bound (fun t => 68 - t) [10, 30, 50, 70]).2
              = [([10, 30, 50, 70].get k, (k : Nat))]
            ∧ 0 ≤ (68 - [10, 30, 50, 70].get k)
            ∧ ∀ j : Fin ([10, 30, 50, 70] : List Int).length,
                (k : Nat) < (j : Nat) → (68 - [10, 30, 50, 70].get j) < 0)
      ∧ ((binary_search_lower_bound (fun t => 68 - t) [10, 30, 50, 70]).1 = false →
          (binary_search_lower_bound (fun t => 68 - t) [10, 30, 50, 70]).2 = [])) :=
  ⟨by decide, binary_search_lower_bound_found (fun t => 68 - t) [10, 30, 50, 70]
    (by decide)⟩

/-- Embeds `detail::type_list_impl::is_sorted<TLessComparer, ...>`
(list.h:729-741): every adjacent pair `(lhs, rhs)` satisfies
`!TLessComparer<rhs, lhs>`. -/
def is_sorted (C : α → α → Bool) : List α → Bool
  | [] => true
  | [_] => true
  | a :: b :: rest => !(C b a) && is_sorted C (b :: rest)

/-- Embeds `detail::type_list_impl::split<Index, ...>` (list.h:704-723): the
pair of the first `Index` elements and the remainder. -/
def split (n : Nat) : List α → List α × List α
  | [] => ([], [])
  | t :: rest =>
    if n = 0 then ([], t :: rest)
    else
      let tl := split (n - 1) rest
      (t :: tl.1, tl.2)

/-- Embeds `detail::type_list_impl::merge<TLessComparer, TRHSList, TLHS...>`
(list.h:747-781): with both lists non-empty, the right head is taken exactly
when it compares strictly less than the left head (`TLessComparer<rhs,
lhs>`), otherwise the left head is taken; an exhausted side yields the
other. -/
def merge (C : α → α → Bool) : List α → List α → List α
  | [], rhs => rhs
  | lhs, [] => lhs
  | l :: ls, r :: rs =>
    if C r l then r :: merge C (l :: ls) rs
    else l :: merge C ls (r :: rs)
termination_by lhs rhs => lhs.length + rhs.length
decreasing_by
  · simp only [List.length_cons]
    omega
  · simp only [List.length_cons]
    omega

theorem split_eq (n : Nat) :
    ∀ L : List α, split n L = (L.take n, L.drop n) := by
  induction n with
  | zero => intro L; cases L <;> simp [split]
  | succ n ih =>
    intro L
    cases L with
    | nil => simp [split]
    | cons t rest => simp [split, ih]

/-- Embeds `detail::type_list_impl::merge_sort<TLessComparer, TList>`
(list.h:807-832): empty and singleton lists are returned unchanged; otherwise
the list is split at `size / 2` and the recursively sorted halves are
merged. -/
def merge_sort (C : α → α → Bool) : List α → List α
  | [] => []
  | [t] => [t]
  | t1 :: t2 :: rest =>
    merge C
      (merge_sort C (split ((t1 :: t2 :: rest).length / 2) (t1 :: t2 :: rest)).1)
      (merge_sort C (split ((t1 :: t2 :: rest).length / 2) (t1 :: t2 :: rest)).2)
termination_by L => L.length
decreasing_by
  · rw [split_eq]
    simp only [List.length_take]
    simp
    omega
  · rw [split_eq]
    simp only [List.length_drop]
    simp
    omega

/-- Pairs every element with its 0-based position (starting at `i`); used to
state the stability of `merge_sort`. -/
def tag : Nat → List α → List (Nat × α)
  | _, [] => []
  | i, t :: rest => (i, t) :: tag (i + 1) rest

theorem merge_nil_left (C : α → α → Bool) (rhs : List α) :
    merge C [] rhs = rhs := by
  rw [merge]

theorem merge_nil_right (C : α → α → Bool) (lhs : List α) :
    merge C lhs [] = lhs := by
  cases lhs with
  | nil => rw [merge]
  | cons l ls =>
    rw [merge]
    simp

theorem merge_cons_cons (C : α → α → Bool) (l r : α) (ls rs : List α) :
    merge C (l :: ls) (r :: rs)
      = if C r l then r :: merge C (l :: ls) rs
        else l :: merge C ls (r :: rs) := by
  rw [merge]

theorem merge_eq_core (C : α → α → Bool) :
    ∀ xs ys : List α, merge C xs ys = List.merge xs ys (fun a b => !(C b a)) := by
  intro xs
  induction xs with
  | nil =>
    intro ys
    rw [merge_nil_left]
    simp [List.merge]
  | cons x xs ih1 =>
    intro ys
    induction ys with
    | nil =>
      rw [merge_nil_right]
      simp [List.merge]
    | cons y ys ih2 =>
      rw [merge_cons_cons, List.cons_merge_cons]
      by_cases h : C y x
      · rw [if_pos h, if_neg (by simp [h]), ih2]
      · rw [if_neg h, if_pos (by simp [h]), ih1]

theorem merge_perm (C : α → α → Bool) (xs ys : List α) :
    (merge C xs ys).Perm (xs ++ ys) := by
  rw [merge_eq_core]
  exact List.merge_perm_append _

theorem mem_merge_iff (C : α → α → Bool) {z : α} {xs ys : List α} :
    z ∈ merge C xs ys ↔ z ∈ xs ∨ z ∈ ys := by
  rw [(merge_perm C xs ys).mem_iff]
  exact List.mem_append

theorem merge_sort_nil (C : α → α → Bool) : merge_sort C ([] : List α) = [] := by
  rw [merge_sort]

theorem merge_sort_singleton (C : α → α → Bool) (t : α) :
    merge_sort C [t] = [t] := by
  rw [merge_sort]

theorem merge_sort_cons_cons (C : α → α → Bool) (t1 t2 : α) (rest : List α) :
    merge_sort C (t1 :: t2 :: rest)
      = merge C
          (merge_sort C ((t1 :: t2 :: rest).take ((t1 :: t2 :: rest).length / 2)))
          (merge_sort C ((t1 :: t2 :: rest).drop ((t1 :: t2 :: rest).length / 2))) := by
  rw [merge_sort, split_eq]

theorem merge_sort_perm (C : α → α → Bool) :
    ∀ (N : Nat) (L : List α), L.length = N → (merge_sort C L).Perm L := by
  intro N
  induction N using Nat.strong_induction_on with
  | _ N ih =>
    intro L hlen
    match L with
    | [] => rw [merge_sort_nil]
    | [t] => rw [merge_sort_singleton]
    | t1 :: t2 :: rest =>
      rw [merge_sort_cons_cons]
      have hlen2 : 2 ≤ (t1 :: t2 :: rest).length := by simp
      have h1 : ((t1 :: t2 :: rest).take ((t1 :: t2 :: rest).length / 2)).length
          < (t1 :: t2 :: rest).length := by
        simp only [List.length_take]
        omega
      have h2 : ((t1 :: t2 :: rest).drop ((t1 :: t2 :: rest).length / 2)).length
          < (t1 :: t2 :: rest).length := by
        simp only [List.length_drop]
        omega
      refine ((merge_perm C _ _).trans ?_)
      refine (List.Perm.append
        (ih _ (by omega) _ rfl)
        (ih _ (by omega) _ rfl)).trans ?_
      exact List.Perm.of_eq (List.take_append_drop _ _)

theorem merge_sort_pairwise (C : α → α → Bool)
    (htrans : ∀ a b c : α, (!(C b a)) = true → (!(C c b)) = true → (!(C c a)) = true)
    (htotal : ∀ a b : α, ((!(C b a)) || (!(C a b))) = true) :
    ∀ (N : Nat) (L : List α), L.length = N →
      (merge_sort C L).Pairwise (fun a b => (!(C b a)) = true) := by
  intro N
  induction N using Nat.strong_induction_on with
  | _ N ih =>
    intro L hlen
    match L with
    | [] =>
      rw [merge_sort_nil]
      exact List.Pairwise.nil
    | [t] =>
      rw [merge_sort_singleton]
      exact List.pairwise_singleton _ _
    | t1 :: t2 :: rest =>
      rw [merge_sort_cons_cons, merge_eq_core]
      have hlen2 : 2 ≤ (t1 :: t2 :: rest).length := by simp
      have h1 : ((t1 :: t2 :: rest).take ((t1 :: t2 :: rest).length / 2)).length
          < (t1 :: t2 :: rest).length := by
        simp only [List.length_take]
        omega
      have h2 : ((t1 :: t2 :: rest).drop ((t1 :: t2 :: rest).length / 2)).length
          < (t1 :: t2 :: rest).length := by
        simp only [List.length_drop]
        omega
      exact List.sorted_merge htrans htotal _ _
        (ih _ (by omega) _ rfl) (ih _ (by omega) _ rfl)

theorem is_sorted_of_pairwise (C : α → α → Bool) :
    ∀ L : List α, L.Pairwise (fun a b => (!(C b a)) = true) →
      is_sorted C L = true := by
  intro L
  induction L with
  | nil => intro _; rfl
  | cons a rest ih =>
    intro h
    cases rest with
    | nil => rfl
    | cons b rest2 =>
      rw [is_sorted, Bool.and_eq_true]
      constructor
      · exact List.rel_of_pairwise_cons h (List.mem_cons_self _ _)
      · exact ih h.tail

theorem merge_cons_cons_pos (C : α → α → Bool) (l r : α) (ls rs : List α)
    (h : C r l = true) :
    merge C (l :: ls) (r :: rs) = r :: merge C (l :: ls) rs := by
  rw [merge_cons_cons, if_pos h]

theorem merge_cons_cons_neg (C : α → α → Bool) (l r : α) (ls rs : List α)
    (h : C r l = false) :
    merge C (l :: ls) (r :: rs) = l :: merge C ls (r :: rs) := by
  rw [merge_cons_cons, if_neg (by simp [h])]

theorem merge_pairwise_stable (C : α → α → Bool)
    (hntrans : ∀ a b c : α, C b a = false → C c b = false → C c a = false) :
    ∀ (xs ys : List (Nat × α)),
      xs.Pairwise (fun p q => C q.2 p.2 = false) →
      xs.Pairwise (fun p q => C p.2 q.2 = false → C q.2 p.2 = false → p.1 < q.1) →
      ys.Pairwise (fun p q => C p.2 q.2 = false → C q.2 p.2 = false → p.1 < q.1) →
      (∀ p ∈ xs, ∀ q ∈ ys, p.1 < q.1) →
      (merge (fun p q : Nat × α => C p.2 q.2) xs ys).Pairwise
        (fun p q => C p.2 q.2 = false → C q.2 p.2 = false → p.1 < q.1) := by
  intro xs
  induction xs with
  | nil =>
    intro ys _ _ hSys _
    rw [merge_nil_left]
    exact hSys
  | cons x xs ih1 =>
    intro ys
    induction ys with
    | nil =>
      intro _ hSxs _ _
      rw [merge_nil_right]
      exact hSxs
    | cons y ys ih2 =>
      intro hsorted hSxs hSys hcross
      cases hC : C y.2 x.2 with
      | true =>
        rw [merge_cons_cons_pos (fun p q : Nat × α => C p.2 q.2) x y xs ys hC]
        apply List.Pairwise.cons
        · intro z hz
          rcases (mem_merge_iff _).mp hz with hzx | hzy
          · intro h1 h2
            exfalso
            rcases List.mem_cons.mp hzx with rfl | hzxs
            · rw [h1] at hC
              exact Bool.false_ne_true hC
            · have hzx2 : C z.2 x.2 = false :=
                List.rel_of_pairwise_cons hsorted hzxs
              have := hntrans x.2 z.2 y.2 hzx2 h1
              rw [this] at hC
              exact Bool.false_ne_true hC
          · exact List.rel_of_pairwise_cons hSys hzy
        · exact ih2 hsorted hSxs hSys.tail
            (fun p hp q hq => hcross p hp q (List.mem_cons_of_mem _ hq))
      | false =>
        rw [merge_cons_cons_neg (fun p q : Nat × α => C p.2 q.2) x y xs ys hC]
        apply List.Pairwise.cons
        · intro z hz
          rcases (mem_merge_iff _).mp hz with hzxs | hzy
          · exact List.rel_of_pairwise_cons hSxs hzxs
          · intro _ _
            exact hcross x (List.mem_cons_self _ _) z hzy
        · exact ih1 (y :: ys) hsorted.tail hSxs.tail hSys
            (fun p hp q hq => hcross p (List.mem_cons_of_mem _ hp) q hq)

theorem merge_sort_tag_pairwise (C : α → α → Bool)
    (hasym : ∀ a b : α, C a b = true → C b a = false)
    (hntrans : ∀ a b c : α, C b a = false → C c b = false → C c a = false) :
    ∀ (N : Nat) (T : List (Nat × α)), T.length = N →
      T.Pairwise (fun p q => p.1 < q.1) →
      (merge_sort (fun p q : Nat × α => C p.2 q.2) T).Pairwise
        (fun p q => C p.2 q.2 = false → C q.2 p.2 = false → p.1 < q.1) := by
  have htransC2 : ∀ p q r : Nat × α,
      (!((fun p q : Nat × α => C p.2 q.2) q p)) = true →
      (!((fun p q : Nat × α => C p.2 q.2) r q)) = true →
      (!((fun p q : Nat × α => C p.2 q.2) r p)) = true := by
    intro p q r h1 h2
    simp only [Bool.not_eq_true'] at h1 h2 ⊢
    exact hntrans _ _ _ h1 h2
  have htotalC2 : ∀ p q : Nat × α,
      ((!((fun p q : Nat × α => C p.2 q.2) q p))
        || (!((fun p q : Nat × α => C p.2 q.2) p q))) = true := by
    intro p q
    cases h1 : C p.2 q.2 with
    | true => simp [hasym _ _ h1]
    | false => simp [h1]
  intro N
  induction N using Nat.strong_induction_on with
  | _ N ih =>
    intro T hlen hPlt
    match T with
    | [] =>
      rw [merge_sort_nil]
      exact List.Pairwise.nil
    | [t] =>
      rw [merge_sort_singleton]
      exact List.pairwise_singleton _ _
    | t1 :: t2 :: rest =>
      rw [merge_sort_cons_cons]
      have hlen2 : 2 ≤ (t1 :: t2 :: rest).length := by simp
      have h1 : ((t1 :: t2 :: rest).take ((t1 :: t2 :: rest).length / 2)).length
          < (t1 :: t2 :: rest).length := by
        simp only [List.length_take]
        omega
      have h2 : ((t1 :: t2 :: rest).drop ((t1 :: t2 :: rest).length / 2)).length
          < (t1 :: t2 :: rest).length := by
        simp only [List.length_drop]
        omega
      have hT1lt : ((t1 :: t2 :: rest).take
            ((t1 :: t2 :: rest).length / 2)).Pairwise (fun p q => p.1 < q.1) :=
        List.Pairwise.sublist (List.take_sublist _ _) hPlt
      have hT2lt : ((t1 :: t2 :: rest).drop
            ((t1 :: t2 :: rest).length / 2)).Pairwise (fun p q => p.1 < q.1) :=
        List.Pairwise.sublist (List.drop_sublist _ _) hPlt
      have hcross0 : ∀ p ∈ (t1 :: t2 :: rest).take ((t1 :: t2 :: rest).length / 2),
          ∀ q ∈ (t1 :: t2 :: rest).drop ((t1 :: t2 :: rest).length / 2),
            p.1 < q.1 := by
        have h := hPlt
        rw [← List.take_append_drop ((t1 :: t2 :: rest).length / 2)
          (t1 :: t2 :: rest)] at h
        exact (List.pairwise_append.mp h).2.2
      have hsorted1 := merge_sort_pairwise (fun p q : Nat × α => C p.2 q.2)
        htransC2 htotalC2 _ ((t1 :: t2 :: rest).take ((t1 :: t2 :: rest).length / 2))
        rfl
      have hsorted1' : (merge_sort (fun p q : Nat × α => C p.2 q.2)
            ((t1 :: t2 :: rest).take ((t1 :: t2 :: rest).length / 2))).Pairwise
          (fun p q => C q.2 p.2 = false) := by
        refine hsorted1.imp ?_
        intro p q h
        simpa using h
      have hperm1 := merge_sort_perm (fun p q : Nat × α => C p.2 q.2)
        _ ((t1 :: t2 :: rest).take ((t1 :: t2 :: rest).length / 2)) rfl
      have hperm2 := merge_sort_perm (fun p q : Nat × α => C p.2 q.2)
        _ ((t1 :: t2 :: rest).drop ((t1 :: t2 :: rest).length / 2)) rfl
      apply merge_pairwise_stable C hntrans
      · exact hsorted1'
      · exact ih _ (by omega) _ rfl hT1lt
      · exact ih _ (by omega) _ rfl hT2lt
      · intro p hp q hq
        exact hcross0 p (hperm1.mem_iff.mp hp) q (hperm2.mem_iff.mp hq)

theorem merge_map (C : α → α → Bool) (f : β → α) :
    ∀ xs ys : List β,
      (merge (fun p q => C (f p) (f q)) xs ys).map f
        = merge C (xs.map f) (ys.map f) := by
  intro xs
  induction xs with
  | nil =>
    intro ys
    rw [merge_nil_left, List.map_nil, merge_nil_left]
  | cons x xs ih1 =>
    intro ys
    induction ys with
    | nil =>
      rw [merge_nil_right, List.map_nil, merge_nil_right]
    | cons y ys ih2 =>
      cases hC : C (f y) (f x) with
      | true =>
        rw [merge_cons_cons_pos (fun p q => C (f p) (f q)) x y xs ys hC,
          List.map_cons, List.map_cons, List.map_cons,
          merge_cons_cons_pos C (f x) (f y) _ _ hC, ih2, List.map_cons]
      | false =>
        rw [merge_cons_cons_neg (fun p q => C (f p) (f q)) x y xs ys hC,
          List.map_cons, List.map_cons, List.map_cons,
          merge_cons_cons_neg C (f x) (f y) _ _ hC, ih1, List.map_cons]

theorem merge_sort_map (C : α → α → Bool) (f : β → α) :
    ∀ (N : Nat) (T : List β), T.length = N →
      (merge_sort (fun p q => C (f p) (f q)) T).map f
        = merge_sort C (T.map f) := by
  intro N
  induction N using Nat.strong_induction_on with
  | _ N ih =>
    intro T hlen
    match T with
    | [] =>
      simp [merge_sort_nil]
    | [t] =>
      simp [merge_sort_singleton]
    | t1 :: t2 :: rest =>
      have hlen2 : 2 ≤ (t1 :: t2 :: rest).length := by simp
      have h1 : ((t1 :: t2 :: rest).take ((t1 :: t2 :: rest).length / 2)).length
          < (t1 :: t2 :: rest).length := by
        simp only [List.length_take]
        omega
      have h2 : ((t1 :: t2 :: rest).drop ((t1 :: t2 :: rest).length / 2)).length
          < (t1 :: t2 :: rest).length := by
        simp only [List.length_drop]
        omega
      rw [merge_sort_cons_cons, merge_map, ih _ (by omega) _ rfl,
        ih _ (by omega) _ rfl, List.map_cons, List.map_cons,
        merge_sort_cons_cons]
      have hlenmap : (f t1 :: f t2 :: rest.map f).length
          = (t1 :: t2 :: rest).length := by
        simp
      rw [hlenmap]
      have hmapc : (t1 :: t2 :: rest).map f = f t1 :: f t2 :: rest.map f := by
        simp
      have htake : ((t1 :: t2 :: rest).take ((t1 :: t2 :: rest).length / 2)).map f
          = (f t1 :: f t2 :: rest.map f).take ((t1 :: t2 :: rest).length / 2) := by
        rw [List.map_take, hmapc]
      have hdrop : ((t1 :: t2 :: rest).drop ((t1 :: t2 :: rest).length / 2)).map f
          = (f t1 :: f t2 :: rest.map f).drop ((t1 :: t2 :: rest).length / 2) := by
        rw [List.map_drop, hmapc]
      rw [htake, hdrop]

theorem tag_map_snd : ∀ (i : Nat) (L : List α), (tag i L).map Prod.snd = L := by
  intro i L
  induction L generalizing i with
  | nil => rfl
  | cons t rest ih => simp [tag, ih]

theorem tag_ge : ∀ (L : List α) (i : Nat), ∀ p ∈ tag i L, i ≤ p.1 := by
  intro L
  induction L with
  | nil => intro i p hp; simp [tag] at hp
  | cons t rest ih =>
    intro i p hp
    rw [tag] at hp
    rcases List.mem_cons.mp hp with rfl | hp
    · exact le_refl _
    · exact Nat.le_of_succ_le (ih (i + 1) p hp)

theorem tag_pairwise_lt : ∀ (L : List α) (i : Nat),
    (tag i L).Pairwise (fun p q => p.1 < q.1) := by
  intro L
  induction L with
  | nil => intro i; exact List.Pairwise.nil
  | cons t rest ih =>
    intro i
    rw [tag]
    apply List.Pairwise.cons
    · intro q hq
      exact Nat.lt_of_succ_le (tag_ge rest (i + 1) q hq)
    · exact ih (i + 1)

/-- C1: with a less-comparer that is a (strict) total order — asymmetric and
negatively transitive — `merge_sort<TLessComparer>` produces a list that
`is_sorted` accepts, that is a permutation of the input, and does so stably:
sorting the position-tagged list with the comparer lifted to the payloads
projects back onto `merge_sort` of the plain list, and any two elements that
compare equivalent appear in the sorted tagged list with their original
positions in increasing order. -/
theorem merge_sort_sorts_stably (C : α → α → Bool)
    (hasym : ∀ a b : α, C a b = true → C b a = false)
    (hntrans : ∀ a b c : α, C b a = false → C c b = false → C c a = false)
    (L : List α) :
    is_sorted C (merge_sort C L) = true
    ∧ (merge_sort C L).Perm L
    ∧ (merge_sort (fun p q : Nat × α => C p.2 q.2) (tag 0 L)).map Prod.snd
        = merge_sort C L
    ∧ (merge_sort (fun p q : Nat × α => C p.2 q.2) (tag 0 L)).Pairwise
        (fun p q => C p.2 q.2 = false → C q.2 p.2 = false → p.1 < q.1) := by
  have htransC : ∀ a b c : α, (!(C b a)) = true → (!(C c b)) = true →
      (!(C c a)) = true := by
    intro a b c h1 h2
    simp only [Bool.not_eq_true'] at h1 h2 ⊢
    exact hntrans _ _ _ h1 h2
  have htotalC : ∀ a b : α, ((!(C b a)) || (!(C a b))) = true := by
    intro a b
    cases h1 : C a b with
    | true => simp [hasym _ _ h1]
    | false => simp [h1]
  refine ⟨?_, merge_sort_perm C L.length L rfl, ?_, ?_⟩
  · exact is_sorted_of_pairwise C _
      (merge_sort_pairwise C htransC htotalC L.length L rfl)
  · rw [merge_sort_map C Prod.snd (tag 0 L).length (tag 0 L) rfl, tag_map_snd]
  · exact merge_sort_tag_pairwise C hasym hntrans (tag 0 L).length (tag 0 L)
      rfl (tag_pairwise_lt L 0)

/-- Closed instance of `merge_sort_sorts_stably` on `[2, 0, 1, 0]` under the
strict order on naturals. -/
theorem merge_sort_sorts_stably_witness :
    (∀ a b : Nat, decide (a < b) = true → decide (b < a) = false)
    ∧ (∀ a b c : Nat, decide (b < a) = false → decide (c < b) = false →
        decide (c < a) = false)
    ∧ (is_sorted (fun a b : Nat => decide (a < b))
          (merge_sort (fun a b : Nat => decide (a < b)) [2, 0, 1, 0]) = true
      ∧ (merge_sort (fun a b : Nat => decide (a < b)) [2, 0, 1, 0]).Perm [2, 0, 1, 0]
      ∧ (merge_sort (fun p q : Nat × Nat => decide (p.2 < q.2))
            (tag 0 [2, 0, 1, 0])).map Prod.snd
          = merge_sort (fun a b : Nat => decide (a < b)) [2, 0, 1, 0]
      ∧ (merge_sort (fun p q : Nat × Nat => decide (p.2 < q.2))
            (tag 0 [2, 0, 1, 0])).Pairwise
          (fun p q => decide (p.2 < q.2) = false → decide (q.2 < p.2) = false →
            p.1 < q.1)) :=
  ⟨fun a b h => by simp at h ⊢; omega,
   fun a b c h1 h2 => by simp at h1 h2 ⊢; omega,
   merge_sort_sorts_stably (fun a b : Nat => decide (a < b))
    (fun a b h => by simp at h ⊢; omega)
    (fun a b c h1 h2 => by simp at h1 h2 ⊢; omega)
    [2, 0, 1, 0]⟩

end fatal
